import Mathlib

/-!
Verification of the Yendoria AI core against its specification.

Shallow embedding of the relevant Python modules:
* `yendoria.modding` (EventBus, GameEvent),
* `yendoria.components.component_manager` (ComponentManager),
* `yendoria.components.ai_components` (Personality/Memory/Reputation/Faction
  components),
* `yendoria.components.ai_events` (AIEvent),
* `yendoria.systems.ai_behavior_basic` and `ai_behavior_advanced`,
* `yendoria.systems.ai_manager` (AIManager, AISystemRegistry).

Python floats are modelled as rationals (`ℚ`); the code performs only
comparisons, `max`/`min` clamps and additions of decimal literals, which agree
with exact rational arithmetic on all inputs considered here.  Python dicts
are modelled as partial maps (`α → Option β`) or association lists, Python
sets as `Finset`.  Python's stable `list.sort`/`sorted` is modelled by
`List.insertionSort`, which is a stable sorting algorithm, hence computes the
same list as Timsort for every input and comparison key.
-/

namespace Yendoria

/-! ### `yendoria.modding`: `GameEvent` and `EventBus.emit`

`GameEvent` carries a `cancellable` flag and a mutable `cancelled` flag
(plus data irrelevant to dispatch, summarised by a `tag`).  A Python handler
receives the (mutable) event and either returns normally or raises; in both
cases it may first have mutated the event.  `HandlerResult` records the state
of the event when the handler finished together with how it finished. -/

structure GameEvent where
  cancellable : Bool
  cancelled : Bool
  tag : ℕ
deriving DecidableEq, Repr

inductive HandlerResult where
  /-- The handler returned normally, leaving the event in the given state. -/
  | normal (ev : GameEvent)
  /-- The handler raised an exception, leaving the event in the given state. -/
  | raises (ev : GameEvent)
deriving DecidableEq

/-- One event handler: a Python callable mutating the event and possibly
raising.  The result holds the event state after the call. -/
def Handler : Type := GameEvent → HandlerResult

/-- The dispatch loop of `EventBus.emit` (modding/__init__.py, lines 117-144),
starting at handler index `i`.  For each handler the code runs

```
try:
    handler(event)
    if event.cancelled and event.cancellable:
        break
except Exception:
    # log and continue with the next handler
```

The returned list records the indices of the handlers that were invoked, in
order; the returned event is the event state after dispatch. -/
def dispatchFrom (i : ℕ) : List Handler → GameEvent → GameEvent × List ℕ
  | [], ev => (ev, [])
  | h :: hs, ev =>
    match h ev with
    | .normal ev' =>
      if ev'.cancelled && ev'.cancellable then
        (ev', [i])
      else
        let r := dispatchFrom (i + 1) hs ev'
        (r.1, i :: r.2)
    | .raises ev' =>
      -- the exception skips the cancellation check; emit logs and continues
      let r := dispatchFrom (i + 1) hs ev'
      (r.1, i :: r.2)

/-- `EventBus.emit`: dispatch an event to the handler list registered for its
type (the bounded history bookkeeping does not influence dispatch and is
omitted).  Returns the final event and the indices of invoked handlers. -/
def emit (hs : List Handler) (ev : GameEvent) : GameEvent × List ℕ :=
  dispatchFrom 0 hs ev

/-! ### Theorems for C1 and C10 -/

/-- C1: for a cancellable event with handlers H1, H2, ..., Hn subscribed in
order, if H1 returns normally having set `cancelled = true` (leaving the
event cancellable), then `emit` invokes only H1: the list of invoked handler
indices is `[0]`, so none of the subsequent handlers run for this emission. -/
theorem emit_cancel_short_circuit (h1 : Handler) (rest : List Handler)
    (ev ev' : GameEvent) (hres : h1 ev = .normal ev')
    (hcancelled : ev'.cancelled = true) (hcancellable : ev'.cancellable = true) :
    emit (h1 :: rest) ev = (ev', [0]) := by
  unfold emit dispatchFrom
  rw [hres]
  simp [hcancelled, hcancellable]

/-- Witness for C1: a concrete cancellable event, a first handler that cancels
it and returns normally, and two further handlers; only handler 0 runs. -/
theorem emit_cancel_short_circuit_witness :
    emit [fun ev => .normal { ev with cancelled := true },
          fun ev => .normal { ev with tag := 1 },
          fun ev => .normal { ev with tag := 2 }]
        { cancellable := true, cancelled := false, tag := 0 }
      = ({ cancellable := true, cancelled := true, tag := 0 }, [0]) :=
  emit_cancel_short_circuit _ _ _ _ rfl rfl rfl

/-- Counterexample for C10.  Handlers: H1 sets `cancelled = true` and then
raises; H2 and H3 return normally without touching the event.  The claim
says dispatch continues to all remaining handlers (H2 and H3), i.e. the
invoked indices would be `[0, 1, 2]`.  In fact the `cancelled` flag set by H1
persists, so the short-circuit check fires right after H2 returns normally:
only `[0, 1]` are invoked and H3 never runs. -/
theorem emit_raise_after_cancel_counterexample :
    (emit [fun ev => .raises { ev with cancelled := true },
           fun ev => .normal ev,
           fun ev => .normal ev]
        { cancellable := true, cancelled := false, tag := 0 }).2 = [0, 1] ∧
    ([0, 1] : List ℕ) ≠ [0, 1, 2] := by
  constructor
  · rfl
  · decide

/-- C10 (amended): if a handler of a cancellable event sets `cancelled = true`
and then raises, `emit` logs the error and continues with the next handler
only — the cancellation check is skipped for the raising handler, but the
event stays cancelled, so dispatch stops immediately after the next handler
that returns normally (with the event still cancelled and cancellable).
Handlers after that one are not invoked. -/
theorem emit_raise_after_cancel (h1 h2 : Handler) (rest : List Handler)
    (ev e1 e2 : GameEvent)
    (h1res : h1 ev = .raises e1)
    (h1cancelled : e1.cancelled = true)
    (h2res : h2 e1 = .normal e2)
    (h2cancelled : e2.cancelled = true) (h2cancellable : e2.cancellable = true) :
    emit (h1 :: h2 :: rest) ev = (e2, [0, 1]) := by
  unfold emit dispatchFrom
  rw [h1res]
  simp only
  unfold dispatchFrom
  rw [h2res]
  simp [h2cancelled, h2cancellable]

/-- Witness for C10's amended theorem: concrete handlers where H1 cancels and
raises, H2 is a no-op; exactly H1 and H2 are invoked. -/
theorem emit_raise_after_cancel_witness :
    emit [fun ev => .raises { ev with cancelled := true },
          fun ev => .normal ev,
          fun ev => .normal ev]
        { cancellable := true, cancelled := false, tag := 0 }
      = ({ cancellable := true, cancelled := true, tag := 0 }, [0, 1]) :=
  emit_raise_after_cancel _ _ _ _ _ _ rfl rfl rfl rfl rfl

/-! ### `yendoria.components.ai_events`: `AIEventType` and `AIEvent`

Only the members needed by the behavior systems' `handle_event` are modelled
(`FACTION_RELATION_CHANGED` is an alias member of
`FACTION_RELATIONSHIP_CHANGED` in the Python enum, i.e. the same member). -/

inductive AIEventType where
  | REPUTATION_CHANGED
  | CONFLICT_STARTED
  | FACTION_RELATIONSHIP_CHANGED
deriving DecidableEq, Repr

/-- The `.value` string of each modelled `AIEventType` member. -/
def AIEventType.value : AIEventType → String
  | .REPUTATION_CHANGED => "reputation_changed"
  | .CONFLICT_STARTED => "conflict_started"
  | .FACTION_RELATIONSHIP_CHANGED => "faction_relationship_changed"

/-- A dynamically typed Python value as far as the `event_type` attribute is
concerned: either a plain string or an `AIEventType` enum member. -/
inductive PyVal where
  | str (s : String)
  | aiEnum (e : AIEventType)
deriving DecidableEq, Repr

/-- Python `==` between such values.  A plain `enum.Enum` member compares
equal only to itself (identity semantics); it is never equal to its `.value`
string, and a string is never equal to an enum member. -/
def pyEq : PyVal → PyVal → Bool
  | .str a, .str b => a == b
  | .aiEnum a, .aiEnum b => a == b
  | _, _ => false

/-- `AIEvent` (ai_events.py, lines 86-112), restricted to the attributes read
by dispatch.  `__init__` stores the enum member in `ai_event_type` but then
sets `self.event_type = event_type.value` — a plain string. -/
structure AIEvent where
  ai_event_type : AIEventType
  event_type : PyVal
  cancellable : Bool
deriving DecidableEq, Repr

/-- `AIEvent.__init__`: `self.ai_event_type = event_type;
self.event_type = event_type.value`. -/
def mkAIEvent (t : AIEventType) (cancellable : Bool := false) : AIEvent :=
  { ai_event_type := t, event_type := .str t.value, cancellable := cancellable }

/-- The three internal handlers of `BasicAIBehaviorSystem` that
`handle_event` can dispatch to. -/
inductive BasicDispatch where
  | reputationChange
  | conflictStart
  | factionRelationChange
deriving DecidableEq, Repr

/-- `BasicAIBehaviorSystem.handle_event` (ai_behavior_basic.py, lines
111-130): compares `event.event_type` — a string — with `AIEventType` enum
members using Python `==`, and calls the matching internal handler.  Returns
which internal handler was invoked, if any. -/
def basicHandleEvent (event : AIEvent) : Option BasicDispatch :=
  if pyEq event.event_type (.aiEnum .REPUTATION_CHANGED) then
    some .reputationChange
  else if pyEq event.event_type (.aiEnum .CONFLICT_STARTED) then
    some .conflictStart
  else if pyEq event.event_type (.aiEnum .FACTION_RELATIONSHIP_CHANGED) then
    some .factionRelationChange
  else
    none

/-- For contrast: `AdvancedAIBehaviorSystem.handle_event` (ai_behavior_advanced.py)
compares `event.ai_event_type` — the enum member itself — so its dispatch works. -/
def advancedHandleEvent (event : AIEvent) : Option BasicDispatch :=
  if event.ai_event_type == .REPUTATION_CHANGED then
    some .reputationChange
  else if event.ai_event_type == .CONFLICT_STARTED then
    some .conflictStart
  else if event.ai_event_type == .FACTION_RELATIONSHIP_CHANGED then
    some .factionRelationChange
  else
    none

/-- C3: the claim says `BasicAIBehaviorSystem.handle_event` dispatches
REPUTATION_CHANGED / CONFLICT_STARTED / FACTION_RELATIONSHIP_CHANGED events
to their internal handlers.  Evaluating the code: `AIEvent.__init__` stores
the *string* `event_type.value` in `event.event_type`, and `handle_event`
compares that string against `AIEventType` enum members, which is always
false in Python — so no internal handler is ever invoked, for any of the
three event types (while the advanced system's comparison via
`ai_event_type` does dispatch). -/
theorem basic_handle_event_never_dispatches :
    basicHandleEvent (mkAIEvent .REPUTATION_CHANGED) = none ∧
    basicHandleEvent (mkAIEvent .CONFLICT_STARTED) = none ∧
    basicHandleEvent (mkAIEvent .FACTION_RELATIONSHIP_CHANGED) = none ∧
    advancedHandleEvent (mkAIEvent .REPUTATION_CHANGED) = some .reputationChange := by
  decide

/-! ### `yendoria.components.ai_components`: clamped values (C9)

`PersonalityComponent.set_trait` clamps to `[0, 1]`;
`ReputationComponent.set_faction_reputation` / `set_individual_reputation`
clamp to `[-1, 1]`; `FactionComponent.__init__` stores `loyalty` as given. -/

/-- `PersonalityComponent`: a trait dict (`String → Option ℚ`) plus a shadow
map recording instance attributes written by raw `setattr` (used by
`AIManager._apply_archetype`; `get_trait`/`set_trait` never read it). -/
structure PersonalityComponent where
  traits : String → Option ℚ
  attrOverrides : String → Option ℚ := fun _ => none

/-- The default personality traits dict built by
`PersonalityComponent.__init__`: ten known traits, each `0.5`. -/
def defaultTraits : String → Option ℚ := fun s =>
  if s ∈ ["aggression", "caution", "curiosity", "loyalty", "intelligence",
          "greed", "empathy", "ambition", "restlessness", "charisma"] then
    some (1 / 2)
  else
    none

/-- `PersonalityComponent.__init__(traits)`: defaults, updated with the given
dict when one is passed. -/
def mkPersonalityComponent (tr : Option (List (String × ℚ)) := none) :
    PersonalityComponent :=
  { traits := fun s =>
      match tr with
      | none => defaultTraits s
      | some l => (l.lookup s).or (defaultTraits s) }

/-- `PersonalityComponent.get_trait(name, default=0.5)`. -/
def getTrait (p : PersonalityComponent) (name : String) (d : ℚ := 1 / 2) : ℚ :=
  (p.traits name).getD d

/-- `PersonalityComponent.set_trait(name, value)`: stores
`max(0.0, min(1.0, value))`. -/
def setTrait (p : PersonalityComponent) (name : String) (v : ℚ) :
    PersonalityComponent :=
  { p with traits := fun s => if s = name then some (max 0 (min 1 v)) else p.traits s }

/-- `ReputationComponent`: faction-keyed and individual-keyed score dicts. -/
structure ReputationComponent where
  faction_reputation : String → Option ℚ := fun _ => none
  individual_reputation : String → Option ℚ := fun _ => none

/-- `ReputationComponent.get_faction_reputation`: dict get with default 0. -/
def getFactionReputation (r : ReputationComponent) (fid : String) : ℚ :=
  (r.faction_reputation fid).getD 0

/-- `ReputationComponent.set_faction_reputation`: stores
`max(-1.0, min(1.0, value))`. -/
def setFactionReputation (r : ReputationComponent) (fid : String) (v : ℚ) :
    ReputationComponent :=
  { r with faction_reputation := fun s =>
      if s = fid then some (max (-1) (min 1 v)) else r.faction_reputation s }

/-- `ReputationComponent.get_individual_reputation`: dict get with default 0. -/
def getIndividualReputation (r : ReputationComponent) (eid : String) : ℚ :=
  (r.individual_reputation eid).getD 0

/-- `ReputationComponent.set_individual_reputation`: stores
`max(-1.0, min(1.0, value))`. -/
def setIndividualReputation (r : ReputationComponent) (eid : String) (v : ℚ) :
    ReputationComponent :=
  { r with individual_reputation := fun s =>
      if s = eid then some (max (-1) (min 1 v)) else r.individual_reputation s }

/-- `FactionConfig` (ai_components.py): optional name/description, relations
and territory. -/
structure FactionConfig where
  name : Option String := none
  description : Option String := none
  relations : List (String × ℚ) := []
  territory : List String := []

/-- `FactionComponent.__init__` (ai_components.py, lines 66-93): stores
`faction_id`, `rank` and `loyalty` exactly as passed (no clamping), then
derives display data from the optional config. -/
structure FactionComponent where
  faction_id : String
  rank : String
  loyalty : ℚ
  name : String
  description : String
  relations : List (String × ℚ)
  territory : List String

def mkFactionComponent (faction_id : String) (rank : String := "member")
    (loyalty : ℚ := 1) (config : Option FactionConfig := none) :
    FactionComponent :=
  let cfg := config.getD {}
  { faction_id := faction_id
    rank := rank
    loyalty := loyalty
    name := (cfg.name).getD faction_id
    description := (cfg.description).getD ("Faction " ++ faction_id)
    relations := cfg.relations
    territory := cfg.territory }

/-- Counterexample for C9: the claim includes `FactionComponent` loyalty
among the clamped values, but `FactionComponent.__init__` stores `loyalty`
verbatim: constructing a faction component with `loyalty = 2.0` stores `2.0`,
not `max(0, min(1, 2.0)) = 1.0`. -/
theorem faction_loyalty_not_clamped_counterexample :
    (mkFactionComponent "f" "member" 2 none).loyalty = 2 ∧
    (mkFactionComponent "f" "member" 2 none).loyalty ≠ max 0 (min 1 (2 : ℚ)) := by
  constructor
  · rfl
  · norm_num [mkFactionComponent]

/-- C9 (amended): personality traits and reputation scores are clamped on
every set — `set_trait` stores `max(0, min(1, x))`, the two reputation
setters store `max(-1, min(1, x))` — and a set followed by a get returns `x`
exactly whenever `x` is already within the respective range.
`FactionComponent.loyalty`, by contrast, is stored exactly as passed to the
constructor, without clamping. -/
theorem clamped_setters_spec (p : PersonalityComponent) (r : ReputationComponent)
    (t fid eid fr : String) (x : ℚ) (lo : ℚ) :
    (setTrait p t x).traits t = some (max 0 (min 1 x)) ∧
    (0 ≤ x → x ≤ 1 → getTrait (setTrait p t x) t = x) ∧
    (setFactionReputation r fid x).faction_reputation fid
      = some (max (-1) (min 1 x)) ∧
    (-1 ≤ x → x ≤ 1 → getFactionReputation (setFactionReputation r fid x) fid = x) ∧
    (setIndividualReputation r eid x).individual_reputation eid
      = some (max (-1) (min 1 x)) ∧
    (-1 ≤ x → x ≤ 1 →
      getIndividualReputation (setIndividualReputation r eid x) eid = x) ∧
    (mkFactionComponent fr "member" lo none).loyalty = lo := by
  refine ⟨by simp [setTrait], fun h0 h1 => ?_, by simp [setFactionReputation],
    fun h0 h1 => ?_, by simp [setIndividualReputation], fun h0 h1 => ?_, rfl⟩
  · simp [getTrait, setTrait, max_eq_right, min_eq_right, h0, h1]
  · simp [getFactionReputation, setFactionReputation, max_eq_right, min_eq_right, h0, h1]
  · simp [getIndividualReputation, setIndividualReputation, max_eq_right,
      min_eq_right, h0, h1]

/-- Witness for C9's amended theorem at concrete inputs (`x = 1/2`,
`loyalty = 3/4`): the hypotheses `0 ≤ x ≤ 1` and `-1 ≤ x ≤ 1` hold and the
round-trips return `1/2` exactly. -/
theorem clamped_setters_spec_witness :
    (setTrait (mkPersonalityComponent none) "aggression" (1 / 2)).traits "aggression"
        = some (max 0 (min 1 (1 / 2 : ℚ))) ∧
    (0 ≤ (1 / 2 : ℚ) → (1 / 2 : ℚ) ≤ 1 →
      getTrait (setTrait (mkPersonalityComponent none) "aggression" (1 / 2))
        "aggression" = 1 / 2) ∧
    (setFactionReputation {} "guards" (1 / 2)).faction_reputation "guards"
        = some (max (-1) (min 1 (1 / 2 : ℚ))) ∧
    (-1 ≤ (1 / 2 : ℚ) → (1 / 2 : ℚ) ≤ 1 →
      getFactionReputation (setFactionReputation {} "guards" (1 / 2)) "guards"
        = 1 / 2) ∧
    (setIndividualReputation {} "npc" (1 / 2)).individual_reputation "npc"
        = some (max (-1) (min 1 (1 / 2 : ℚ))) ∧
    (-1 ≤ (1 / 2 : ℚ) → (1 / 2 : ℚ) ≤ 1 →
      getIndividualReputation (setIndividualReputation {} "npc" (1 / 2)) "npc"
        = 1 / 2) ∧
    (mkFactionComponent "monsters" "member" (3 / 4) none).loyalty = 3 / 4 :=
  clamped_setters_spec (mkPersonalityComponent none) {} "aggression" "guards"
    "npc" "monsters" (1 / 2) (3 / 4)

/-! ### `yendoria.systems.ai_manager`: `register_ai_entity` and
`_apply_archetype` (C4)

The archetype/behavior-tree configurations are external JSON (cached in
`_archetype_configs` / `_behavior_tree_configs`); they are modelled as data.
The decisive code is the personality section of `_apply_archetype`
(ai_manager.py, lines 255-288):

```
personality = PersonalityComponent()
for trait, value in archetype["personality"].items():
    if hasattr(personality, trait):
        setattr(personality, trait, value)
self.component_manager.add_component(entity_id, personality)
```

`hasattr(personality, trait)` probes the *object attributes* of the fresh
component — `entity`, `traits` and its methods — not the keys of the
`traits` dict, and `setattr` writes an instance attribute, which
`get_trait` (reading `self.traits`) never consults. -/

/-- The Python attributes of a `PersonalityComponent` instance (instance
attributes and methods).  Inherited dunder attributes (`__init__`, ...) also
exist and would make `hasattr` true, but are not plausible trait names and
are omitted; omitting them only makes the modelled `hasattr` false. -/
def hasattrPersonality (a : String) : Bool :=
  a ∈ ["entity", "traits", "get_trait", "set_trait", "modify_trait"]

/-- Raw `setattr(personality, a, v)`: writes the instance attribute `a`.
The entries of the `traits` dict are untouched (for `a = "traits"` the dict
itself would be replaced by the number `v`, breaking `get_trait`; this case
is unreachable below because the modelled inputs use real trait names). -/
def setattrPersonality (p : PersonalityComponent) (a : String) (v : ℚ) :
    PersonalityComponent :=
  { p with attrOverrides := fun s => if s = a then some v else p.attrOverrides s }

/-- The Python attributes of a `MotivationComponent` instance (same caveat
about dunders as `hasattrPersonality`). -/
def hasattrMotivation (a : String) : Bool :=
  a ∈ ["entity", "needs", "survival_needs", "social_needs", "goals", "drives",
       "set_need", "get_need", "add_goal", "remove_goal", "get_top_goal"]

/-- One archetype entry of the cached `_archetype_configs` dict.  Config
values are modelled as rationals. -/
structure ArchetypeConfig where
  personality : Option (List (String × ℚ)) := none
  behavior_tree : Option String := none
  motivations : Option (List (String × ℚ)) := none

/-- The configuration caches of an `AIManager`: archetype configs and the
names of the available behavior-tree configs. -/
structure AIManagerConfig where
  archetypes : List (String × ArchetypeConfig) := []
  behaviorTrees : List String := []

/-- The AI-relevant components attached to one entity, as managed by
`register_ai_entity`: whether a `MemoryComponent` is present, the
`PersonalityComponent`, the tree-config name held by an attached
`BehaviorTreeComponent`, and the `setattr` shadow written on a fresh
`MotivationComponent` by the motivations section. -/
structure AIEntityComps where
  memory : Bool
  personality : Option PersonalityComponent
  behaviorTree : Option String
  motivation : Option (List (String × ℚ))

/-- `AIManager._apply_archetype(entity_id, archetype_name)`: unknown name is
a logged warning and a no-op; otherwise the personality, behavior-tree and
motivations sections each (re)attach a fresh component built from the
config.  `component_manager.add_component` replaces any existing component of
the same type. -/
def applyArchetype (cfg : AIManagerConfig) (comps : AIEntityComps)
    (name : String) : AIEntityComps :=
  match cfg.archetypes.lookup name with
  | none => comps
  | some arch =>
    let comps :=
      match arch.personality with
      | none => comps
      | some overrides =>
        let p := overrides.foldl
          (fun p tv =>
            if hasattrPersonality tv.1 then setattrPersonality p tv.1 tv.2 else p)
          (mkPersonalityComponent none)
        { comps with personality := some p }
    let comps :=
      match arch.behavior_tree with
      | none => comps
      | some tn =>
        if tn ∈ cfg.behaviorTrees then { comps with behaviorTree := some tn }
        else comps
    match arch.motivations with
    | none => comps
    | some ov =>
      let sh := ov.foldl
        (fun l kv => if hasattrMotivation kv.1 then l ++ [kv] else l) []
      { comps with motivation := some sh }

/-- `AIManager._ensure_ai_components`: attach a default `MemoryComponent`
and a default `PersonalityComponent` when missing. -/
def ensureAIComponents (comps : AIEntityComps) : AIEntityComps :=
  let comps := if comps.memory then comps else { comps with memory := true }
  if comps.personality.isSome then comps
  else { comps with personality := some (mkPersonalityComponent none) }

/-- `AIManager.register_ai_entity(entity_id, archetype)`: ensure baseline
components, then apply the archetype when one is given (the faction branch
and the `ai_entities` bookkeeping are independent of C4 and omitted). -/
def registerAIEntity (cfg : AIManagerConfig) (comps : AIEntityComps)
    (archetype : Option String) : AIEntityComps :=
  let comps := ensureAIComponents comps
  match archetype with
  | none => comps
  | some a => applyArchetype cfg comps a

/-- A cached archetype config whose `"aggressive_monster"` archetype
specifies the personality override `aggression = 0.9`. -/
def aggressiveCfg : AIManagerConfig :=
  { archetypes := [("aggressive_monster",
      { personality := some [("aggression", 9 / 10)] })]
    behaviorTrees := [] }

/-- An entity with no AI components yet. -/
def bareComps : AIEntityComps :=
  { memory := false, personality := none, behaviorTree := none, motivation := none }

/-- C4, evaluated at the failing input: registering an entity with archetype
`"aggressive_monster"` whose config sets the personality trait
`aggression = 0.9` leaves `get_trait("aggression")` at the default `0.5` —
the override is dropped because `hasattr(personality, "aggression")` is false
(traits live in the `traits` dict, not as object attributes), contradicting
the claim that the configured value is reported afterwards.  The
unknown-archetype part of the claim does hold: registering with a name absent
from the cache equals registering with no archetype at all (warning, no-op). -/
theorem apply_archetype_drops_personality_overrides :
    getTrait (((registerAIEntity aggressiveCfg bareComps
        (some "aggressive_monster")).personality).getD (mkPersonalityComponent none))
        "aggression" = 1 / 2 ∧
    ((1 : ℚ) / 2) ≠ 9 / 10 ∧
    ((registerAIEntity aggressiveCfg bareComps
        (some "aggressive_monster")).personality).isSome = true ∧
    registerAIEntity aggressiveCfg bareComps (some "missing_archetype")
      = registerAIEntity aggressiveCfg bareComps none := by
  refine ⟨rfl, by norm_num, rfl, rfl⟩

/-! ### `yendoria.components.component_manager`: `ComponentManager` (C2)

Component types are modelled as natural-number tags (distinct Python
component classes have distinct lowercase names in this repository, so the
class-keyed inverted index and the name-keyed per-entity storage agree).
State:

* `entities` — the keys of `self._entities` (a `Finset` of numeric ids,
  Python ids are `f"entity_{counter}"`);
* `comps i t` — whether the entity object `i` currently holds a component of
  type `t` (the per-entity `_components` dict);
* `index t` — the inverted index `self._component_indices[t]`;
* `counter` — `self._entity_counter`. -/

structure CMState where
  entities : Finset ℕ
  comps : Finset (ℕ × ℕ)
  index : ℕ → Finset ℕ
  counter : ℕ

/-- A fresh `ComponentManager()`. -/
def initCM : CMState :=
  { entities := ∅, comps := ∅, index := fun _ => ∅, counter := 0 }

/-- `create_entity`: registers a new entity under the id `entity_{counter}`
and increments the counter; the fresh entity has no components. -/
def createEntity (s : CMState) : CMState :=
  { s with entities := insert s.counter s.entities, counter := s.counter + 1 }

/-- `add_component(entity_id, component)`: a logged no-op for unknown ids;
otherwise stores the component on the entity and inserts the id into the
index bucket of the component's type. -/
def addComponent (s : CMState) (i t : ℕ) : CMState :=
  if i ∈ s.entities then
    { s with
      comps := insert (i, t) s.comps
      index := fun t' => if t' = t then insert i (s.index t') else s.index t' }
  else s

/-- `remove_component(entity_id, component_type)`: a logged no-op for unknown
ids; when the entity holds such a component, removes it and discards the id
from the type's index bucket. -/
def removeComponent (s : CMState) (i t : ℕ) : CMState :=
  if i ∈ s.entities then
    if (i, t) ∈ s.comps then
      { s with
        comps := s.comps.erase (i, t)
        index := fun t' => if t' = t then (s.index t').erase i else s.index t' }
    else s
  else s

/-- `destroy_entity(entity_id)`: a logged no-op (warning) for unknown ids;
otherwise discards the id from every index bucket and deletes the entity. -/
def destroyEntity (s : CMState) (i : ℕ) : CMState :=
  if i ∈ s.entities then
    { s with
      entities := s.entities.erase i
      index := fun t => (s.index t).erase i }
  else s

/-- `query_entities(*component_types)` (component_manager.py, lines 164-197):
empty type list returns all entities; otherwise intersect the index buckets
of the given types, then keep the ids still present in `_entities`.  (The
Python `if component_types[0] not in self._component_indices: return []`
checks return `[]` exactly when a bucket is absent from the defaultdict,
which is extensionally the same as intersecting with that empty bucket.)
The result is the set of returned entities. -/
def queryEntities (s : CMState) : List ℕ → Finset ℕ
  | [] => s.entities
  | t :: rest =>
    (rest.foldl (fun acc t' => acc ∩ s.index t') (s.index t)).filter
      (fun i => i ∈ s.entities)

/-- The four mutating operations of C2's operation sequences. -/
inductive CMOp where
  | create
  | add (i t : ℕ)
  | remove (i t : ℕ)
  | destroy (i : ℕ)

def applyCMOp (s : CMState) : CMOp → CMState
  | .create => createEntity s
  | .add i t => addComponent s i t
  | .remove i t => removeComponent s i t
  | .destroy i => destroyEntity s i

/-- The internal consistency invariant of a `ComponentManager`: the inverted
index holds exactly the existing entities holding the component, and every id
ever handed out is below the counter. -/
def CMInv (s : CMState) : Prop :=
  (∀ i t, i ∈ s.index t ↔ i ∈ s.entities ∧ (i, t) ∈ s.comps) ∧
  (∀ i, i ∈ s.entities → i < s.counter) ∧
  (∀ i t, (i, t) ∈ s.comps → i < s.counter)

theorem cmInv_init : CMInv initCM := by
  refine ⟨fun i t => ?_, fun i hi => ?_, fun i t h => ?_⟩ <;>
    simp_all [initCM]

theorem cmInv_createEntity {s : CMState} (h : CMInv s) :
    CMInv (createEntity s) := by
  obtain ⟨hidx, hent, hcomp⟩ := h
  refine ⟨fun i t => ?_, fun i hi => ?_, fun i t hc => ?_⟩
  · rw [show (createEntity s).index = s.index from rfl,
      show (createEntity s).comps = s.comps from rfl, hidx i t]
    simp only [createEntity, Finset.mem_insert]
    constructor
    · rintro ⟨h1, h2⟩
      exact ⟨Or.inr h1, h2⟩
    · rintro ⟨h1 | h1, h2⟩
      · exact absurd (h1 ▸ hcomp i t h2) (lt_irrefl _)
      · exact ⟨h1, h2⟩
  · simp only [createEntity, Finset.mem_insert] at hi ⊢
    rcases hi with rfl | hi
    · exact Nat.lt_succ_self _
    · exact Nat.lt_succ_of_lt (hent i hi)
  · exact Nat.lt_succ_of_lt (hcomp i t hc)

theorem cmInv_addComponent {s : CMState} (h : CMInv s) (i t : ℕ) :
    CMInv (addComponent s i t) := by
  obtain ⟨hidx, hent, hcomp⟩ := h
  unfold addComponent
  split
  case isFalse => exact ⟨hidx, hent, hcomp⟩
  case isTrue hmem =>
    refine ⟨fun j t' => ?_, fun j hj => hent j hj, fun j t' hc => ?_⟩
    · show (j ∈ if t' = t then insert i (s.index t') else s.index t') ↔
        j ∈ s.entities ∧ (j, t') ∈ insert (i, t) s.comps
      by_cases ht : t' = t
      · subst ht
        rw [if_pos rfl]
        simp only [Finset.mem_insert, Prod.mk.injEq]
        rw [hidx j t']
        constructor
        · rintro (rfl | ⟨h1, h2⟩)
          · exact ⟨hmem, Or.inl ⟨rfl, trivial⟩⟩
          · exact ⟨h1, Or.inr h2⟩
        · rintro ⟨h1, ⟨rfl, -⟩ | h2⟩
          · exact Or.inl rfl
          · exact Or.inr ⟨h1, h2⟩
      · simp only [if_neg ht, Finset.mem_insert, Prod.mk.injEq]
        rw [hidx j t']
        constructor
        · rintro ⟨h1, h2⟩
          exact ⟨h1, Or.inr h2⟩
        · rintro ⟨h1, ⟨-, rfl⟩ | h2⟩
          · exact absurd rfl ht
          · exact ⟨h1, h2⟩
    · rcases Finset.mem_insert.1 hc with heq | hc'
      · rw [show j = i from congrArg Prod.fst heq]
        exact hent i hmem
      · exact hcomp j t' hc'

theorem cmInv_removeComponent {s : CMState} (h : CMInv s) (i t : ℕ) :
    CMInv (removeComponent s i t) := by
  obtain ⟨hidx, hent, hcomp⟩ := h
  unfold removeComponent
  split
  case isFalse => exact ⟨hidx, hent, hcomp⟩
  case isTrue hmem =>
    split
    case isFalse => exact ⟨hidx, hent, hcomp⟩
    case isTrue hc0 =>
      refine ⟨fun j t' => ?_, fun j hj => hent j hj,
        fun j t' hc => hcomp j t' (Finset.mem_of_mem_erase hc)⟩
      show (j ∈ if t' = t then (s.index t').erase i else s.index t') ↔
        j ∈ s.entities ∧ (j, t') ∈ s.comps.erase (i, t)
      by_cases ht : t' = t
      · subst ht
        rw [if_pos rfl]
        simp only [Finset.mem_erase, Prod.mk.injEq, ne_eq]
        rw [hidx j t']
        constructor
        · rintro ⟨hji, h1, h2⟩
          exact ⟨h1, fun hp => hji hp.1, h2⟩
        · rintro ⟨h1, hne, h2⟩
          exact ⟨fun hji => hne ⟨hji, trivial⟩, h1, h2⟩
      · simp only [if_neg ht, Finset.mem_erase, Prod.mk.injEq, ne_eq]
        rw [hidx j t']
        constructor
        · rintro ⟨h1, h2⟩
          exact ⟨h1, fun hp => ht hp.2, h2⟩
        · rintro ⟨h1, -, h2⟩
          exact ⟨h1, h2⟩

theorem cmInv_destroyEntity {s : CMState} (h : CMInv s) (i : ℕ) :
    CMInv (destroyEntity s i) := by
  obtain ⟨hidx, hent, hcomp⟩ := h
  unfold destroyEntity
  split
  case isFalse => exact ⟨hidx, hent, hcomp⟩
  case isTrue hmem =>
    refine ⟨fun j t => ?_, fun j hj => ?_, fun j t hc => hcomp j t hc⟩
    · show j ∈ (s.index t).erase i ↔ j ∈ s.entities.erase i ∧ (j, t) ∈ s.comps
      simp only [Finset.mem_erase]
      rw [hidx j t]
      constructor
      · rintro ⟨hji, h1, h2⟩
        exact ⟨⟨hji, h1⟩, h2⟩
      · rintro ⟨⟨hji, h1⟩, h2⟩
        exact ⟨hji, h1, h2⟩
    · exact hent j (Finset.mem_erase.1 hj).2

theorem cmInv_applyCMOp {s : CMState} (h : CMInv s) (op : CMOp) :
    CMInv (applyCMOp s op) := by
  cases op with
  | create => exact cmInv_createEntity h
  | add i t => exact cmInv_addComponent h i t
  | remove i t => exact cmInv_removeComponent h i t
  | destroy i => exact cmInv_destroyEntity h i

theorem cmInv_foldl (ops : List CMOp) : CMInv (ops.foldl applyCMOp initCM) := by
  suffices h : ∀ s, CMInv s → CMInv (ops.foldl applyCMOp s) from h _ cmInv_init
  induction ops with
  | nil => exact fun s hs => hs
  | cons op ops ih => exact fun s hs => ih _ (cmInv_applyCMOp hs op)

/-- C2: after any sequence of `create_entity` / `add_component` /
`remove_component` / `destroy_entity` operations on a fresh
`ComponentManager`, `query_entities(A, B)` returns exactly the existing
entities that currently hold both a component of type `A` and one of type
`B`, and `query_entities()` with an empty type list returns all existing
entities. -/
theorem query_entities_exact (ops : List CMOp) (A B : ℕ) :
    queryEntities (ops.foldl applyCMOp initCM) [A, B]
        = (ops.foldl applyCMOp initCM).entities.filter
            (fun i => (i, A) ∈ (ops.foldl applyCMOp initCM).comps
                    ∧ (i, B) ∈ (ops.foldl applyCMOp initCM).comps) ∧
    queryEntities (ops.foldl applyCMOp initCM) [] =
      (ops.foldl applyCMOp initCM).entities := by
  set s := ops.foldl applyCMOp initCM with hs
  obtain ⟨hidx, -, -⟩ := cmInv_foldl ops
  refine ⟨?_, rfl⟩
  ext i
  simp only [queryEntities, List.foldl, Finset.mem_filter, Finset.mem_inter]
  rw [hidx i A, hidx i B]
  constructor
  · rintro ⟨⟨⟨-, hA⟩, -, hB⟩, hi⟩
    exact ⟨hi, hA, hB⟩
  · rintro ⟨hi, hA, hB⟩
    exact ⟨⟨⟨hi, hA⟩, hi, hB⟩, hi⟩

/-! ### `yendoria.systems.ai_manager`: `AISystemRegistry` and
`AIManager.update` (C5)

`AISystemRegistry.systems` is a Python dict (insertion ordered, keys are the
registration names), modelled as a list of entries in registration order with
pairwise-distinct names.  `get_systems_by_priority` is
`sorted(self.systems.items(), key=..priority.., reverse=True)`; Python's
`sorted` is stable also with `reverse=True` (equal keys keep their original
order), so it is modelled by the stable `List.insertionSort` under the
relation `priority b ≤ priority a`.  `AIManager.update` is modelled as a
trace of the observable calls it makes: processing each queued event (in
FIFO order), then calling `update(delta_time)` on the sorted systems that
expose an `update` attribute. -/

structure SysEntry where
  name : String
  priority : ℤ
  hasUpdate : Bool
deriving DecidableEq, Repr

/-- The comparison used by `get_systems_by_priority`: `a` may come before
`b` iff `a`'s priority is at least `b`'s (descending order). -/
def sysOrder (a b : SysEntry) : Prop := b.priority ≤ a.priority

instance : DecidableRel sysOrder := fun a b => inferInstanceAs (Decidable (_ ≤ _))

instance : IsTotal SysEntry sysOrder := ⟨fun a b => le_total b.priority a.priority⟩

instance : IsTrans SysEntry sysOrder :=
  ⟨fun _ _ _ h1 h2 => le_trans h2 h1⟩

/-- `AISystemRegistry.get_systems_by_priority`: all systems sorted by
priority, highest first, stably. -/
def getSystemsByPriority (systems : List SysEntry) : List SysEntry :=
  systems.insertionSort sysOrder

/-- The state of an `AIManager` relevant to `update`: the FIFO event queue
(events as numeric ids) and the registry entries in registration order. -/
structure AIMState where
  queue : List ℕ
  systems : List SysEntry

/-- One observable call made during `AIManager.update`. -/
inductive TraceAct where
  | procEvent (e : ℕ)
  | sysUpdate (n : String)
deriving DecidableEq, Repr

/-- `AIManager.update(delta_time)` (ai_manager.py, lines 410-426): first
`process_events()` drains the queue FIFO (each event dispatched to its
handlers), then each system from `get_systems_by_priority()` that has an
`update` attribute is called once.  Returns the new state and the trace of
calls. -/
def aimUpdate (m : AIMState) : AIMState × List TraceAct :=
  let evTrace := m.queue.map TraceAct.procEvent
  let updTrace := (getSystemsByPriority m.systems).filterMap
    (fun s => if s.hasUpdate then some (TraceAct.sysUpdate s.name) else none)
  ({ m with queue := [] }, evTrace ++ updTrace)

theorem filterMap_hasUpdate_eq_map {l : List SysEntry}
    (h : ∀ s ∈ l, s.hasUpdate = true) :
    l.filterMap (fun s => if s.hasUpdate then some (TraceAct.sysUpdate s.name)
        else none)
      = l.map (fun s => TraceAct.sysUpdate s.name) := by
  induction l with
  | nil => rfl
  | cons a l ih =>
    rw [List.filterMap_cons, List.map_cons, h a (List.mem_cons_self a l),
      ih (fun s hs => h s (List.mem_cons_of_mem a hs))]
    simp

/-- Stability of the registry sort: for every priority value `p`, the
equal-priority systems appear in the sorted list exactly in registration
order. -/
theorem getSystemsByPriority_filter_priority (systems : List SysEntry) (p : ℤ) :
    (getSystemsByPriority systems).filter (fun s => s.priority = p)
      = systems.filter (fun s => s.priority = p) := by
  set c := systems.filter (fun s => s.priority = p) with hc
  have hcsub : List.Sublist c systems := List.filter_sublist systems
  have hcp : ∀ s ∈ c, s.priority = p := by
    intro s hs
    have := (List.mem_filter.1 hs).2
    exact of_decide_eq_true this
  have hpair : c.Pairwise sysOrder := by
    apply List.pairwise_of_forall_mem_list
    intro a ha b hb
    unfold sysOrder
    rw [hcp a ha, hcp b hb]
  have hsorted : List.Sublist c (getSystemsByPriority systems) :=
    List.sublist_insertionSort hpair hcsub
  have hfil : List.Sublist c
      ((getSystemsByPriority systems).filter (fun s => s.priority = p)) := by
    have h1 := hsorted.filter (fun s => decide (s.priority = p))
    rwa [List.filter_eq_self.2 (fun s hs => decide_eq_true (hcp s hs))] at h1
  have hperm : List.Perm
      ((getSystemsByPriority systems).filter (fun s => s.priority = p)) c :=
    (List.perm_insertionSort sysOrder systems).filter _
  exact (hfil.eq_of_length hperm.length_eq.symm).symm

/-- C5: `AIManager.update` first drains the event queue (FIFO) and then calls
each registered system's `update(delta_time)` exactly once, in descending
priority order with equal-priority systems invoked in registration order:
the trace is the queued events followed by the updates of
`get_systems_by_priority()`, which is a permutation of the registered
systems, is sorted by descending priority, and restricted to any fixed
priority equals the registration-ordered sublist.  Hypotheses: every
registered system has an `update` attribute (as the behavior-system
interface requires) and registration names are distinct (they key a dict). -/
theorem aim_update_order (m : AIMState)
    (hupd : ∀ s ∈ m.systems, s.hasUpdate = true)
    (hnames : (m.systems.map SysEntry.name).Nodup) :
    (aimUpdate m).2
        = m.queue.map TraceAct.procEvent
          ++ (getSystemsByPriority m.systems).map
              (fun s => TraceAct.sysUpdate s.name) ∧
    List.Perm (getSystemsByPriority m.systems) m.systems ∧
    (getSystemsByPriority m.systems).Sorted sysOrder ∧
    (∀ p : ℤ, (getSystemsByPriority m.systems).filter (fun s => s.priority = p)
        = m.systems.filter (fun s => s.priority = p)) ∧
    (∀ s ∈ m.systems,
      ((getSystemsByPriority m.systems).map SysEntry.name).count s.name = 1) ∧
    (aimUpdate m).1.queue = [] := by
  have hperm : List.Perm (getSystemsByPriority m.systems) m.systems :=
    List.perm_insertionSort sysOrder m.systems
  refine ⟨?_, hperm, List.sorted_insertionSort sysOrder m.systems,
    getSystemsByPriority_filter_priority m.systems, ?_, rfl⟩
  · show m.queue.map TraceAct.procEvent
        ++ (getSystemsByPriority m.systems).filterMap _ = _
    rw [filterMap_hasUpdate_eq_map
      (fun s hs => hupd s (hperm.mem_iff.1 hs))]
  · intro s hs
    have hmapperm : List.Perm ((getSystemsByPriority m.systems).map SysEntry.name)
        (m.systems.map SysEntry.name) := hperm.map _
    rw [hmapperm.count_eq]
    exact List.count_eq_one_of_mem hnames (List.mem_map_of_mem SysEntry.name hs)

/-- The registry used by the C5 witness: three systems registered in the
order `a` (priority 1), `b` (priority 2), `c` (priority 1), all exposing
`update`.  The sorted order is `b`, `a`, `c`: descending priority, the tie
between `a` and `c` broken by registration order. -/
def witnessRegistry : List SysEntry :=
  [⟨"a", 1, true⟩, ⟨"b", 2, true⟩, ⟨"c", 1, true⟩]

def witnessAIM : AIMState := { queue := [7], systems := witnessRegistry }

/-- Witness for C5 at the concrete manager state `witnessAIM`. -/
theorem aim_update_order_witness :
    (aimUpdate witnessAIM).2
        = witnessAIM.queue.map TraceAct.procEvent
          ++ (getSystemsByPriority witnessAIM.systems).map
              (fun s => TraceAct.sysUpdate s.name) ∧
    List.Perm (getSystemsByPriority witnessAIM.systems) witnessAIM.systems ∧
    (getSystemsByPriority witnessAIM.systems).Sorted sysOrder ∧
    (∀ p : ℤ, (getSystemsByPriority witnessAIM.systems).filter
        (fun s => s.priority = p)
        = witnessAIM.systems.filter (fun s => s.priority = p)) ∧
    (∀ s ∈ witnessAIM.systems,
      ((getSystemsByPriority witnessAIM.systems).map SysEntry.name).count s.name
        = 1) ∧
    (aimUpdate witnessAIM).1.queue = [] :=
  aim_update_order witnessAIM (by decide) (by decide)

/-! ### `yendoria.systems.ai_behavior_basic`: `BasicAIBehaviorSystem` (C8)

`random.choice(actions)` is modelled by an oracle `co : ℕ → ℕ` of successive
draws (indexed by the number of draws made so far, held in `rng`), reduced
modulo the length of the action list. -/

/-- One node of a behavior tree (`tree_data` dicts dispatched on their
`"type"` key in `ai_behavior_advanced.py`); `other` covers unknown types. -/
inductive BTNode where
  | selector (children : List BTNode)
  | sequence (children : List BTNode)
  | action (name : String)
  | condition (name : String)
  | other

/-- `BehaviorTreeComponent` (ai_components.py), restricted to the attributes
the behavior systems read: `tree_data` (`none` = falsy / not set,
`some none` = a dict without a `"root"` key, `some (some root)` = a dict with
a root node) and `current_action`. -/
structure BehaviorTreeComponent where
  treeData : Option (Option BTNode)
  currentAction : Option String

/-- The fixed action list of `BasicAIBehaviorSystem._choose_action`. -/
def basicActions : List String := ["wander", "patrol", "rest", "seek_food", "guard"]

/-- `_choose_action`: `random.choice(actions)` — the oracle's next draw,
reduced to an index into the action list. -/
def chooseAction (co : ℕ → ℕ) (rng : ℕ) : String :=
  basicActions.getD (co rng % basicActions.length) "wander"

theorem getD_mem_or {α : Type} (l : List α) (i : ℕ) (d : α) :
    l.getD i d ∈ l ∨ l.getD i d = d := by
  rcases h : l[i]? with - | a
  · right
    simp [List.getD_eq_getElem?_getD, h]
  · left
    have he : l.getD i d = a := by
      simp [List.getD_eq_getElem?_getD, h]
    rw [he]
    exact List.getElem?_mem h

theorem chooseAction_mem (co : ℕ → ℕ) (rng : ℕ) :
    chooseAction co rng ∈ basicActions := by
  rcases getD_mem_or basicActions (co rng % basicActions.length) "wander" with h | h
  · exact h
  · rw [chooseAction, h]
    decide

theorem chooseAction_ne_empty (co : ℕ → ℕ) (rng : ℕ) :
    chooseAction co rng ≠ "" := by
  intro hcontra
  have h := chooseAction_mem co rng
  rw [hcontra] at h
  exact absurd h (by decide)

/-- The state of a `BasicAIBehaviorSystem` together with the component store
it reads: for each entity id, its `BehaviorTreeComponent` (if any), the
`entity_timers` dict, and the number of random draws made so far. -/
structure BasicSt where
  data : ℕ → Option BehaviorTreeComponent
  timers : ℕ → Option ℚ
  rng : ℕ

/-- `self.entity_timers[entity_id] = v`. -/
def basicSetTimer (s : BasicSt) (id : ℕ) (v : ℚ) : BasicSt :=
  { s with timers := fun j => if j = id then some v else s.timers j }

/-- `behavior_tree.current_action = action` (mutating the component held in
the store for `id`). -/
def basicSetAction (s : BasicSt) (id : ℕ) (bt : BehaviorTreeComponent)
    (a : String) : BasicSt :=
  { s with data := fun j =>
      if j = id then some { bt with currentAction := some a } else s.data j }

/-- One `random.choice` draw was consumed. -/
def basicRngBump (s : BasicSt) : BasicSt := { s with rng := s.rng + 1 }

/-- `BasicAIBehaviorSystem._update_entity_behavior(entity_id, delta_time)`
(ai_behavior_basic.py, lines 77-109): accumulate the entity timer
(`timers.get(id, 0.0) + dt`), fetch the `BehaviorTreeComponent` (return if
absent), and once the timer reaches 1.0 choose an action, store it in
`current_action` when it is truthy (the chosen action is a non-empty string,
so the `if action:` guard always passes) and reset the timer to 0.0. -/
def basicUpdateEntity (co : ℕ → ℕ) (id : ℕ) (dt : ℚ) (s : BasicSt) : BasicSt :=
  let t := (s.timers id).getD 0 + dt
  let s1 := basicSetTimer s id t
  match s1.data id with
  | none => s1
  | some bt =>
    if 1 ≤ t then
      let action := chooseAction co s1.rng
      let s2 := basicRngBump s1
      let s3 := if action ≠ "" then basicSetAction s2 id bt action else s2
      basicSetTimer s3 id 0
    else s1

/-- Folding a sequence of per-tick `delta_time` increments through
`_update_entity_behavior` for one entity. -/
def basicFold (co : ℕ → ℕ) (id : ℕ) (dts : List ℚ) (s : BasicSt) : BasicSt :=
  dts.foldl (fun st d => basicUpdateEntity co id d st) s

theorem basicFold_reaches_one (co : ℕ → ℕ) (e : ℕ) :
    ∀ (dts : List ℚ) (s : BasicSt) (bt : BehaviorTreeComponent),
      dts ≠ [] → s.data e = some bt →
      (∀ d ∈ dts, 0 < d) → (s.timers e).getD 0 + dts.sum = 1 →
      (basicFold co e dts s).data e
          = some { bt with currentAction := some (chooseAction co s.rng) } ∧
      (basicFold co e dts s).timers e = some 0 ∧
      (basicFold co e dts s).rng = s.rng + 1
  | [], _, _, hne, _, _, _ => absurd rfl hne
  | [d], s, bt, _, hbt, _, hsum => by
    have ht : (s.timers e).getD 0 + d = 1 := by
      simpa using hsum
    have h1 : (1 : ℚ) ≤ (s.timers e).getD 0 + d := le_of_eq ht.symm
    have hne := chooseAction_ne_empty co s.rng
    refine ⟨?_, ?_, ?_⟩ <;>
      simp [basicFold, basicUpdateEntity, basicSetTimer, basicSetAction,
        basicRngBump, hbt, h1, hne]
  | d1 :: d2 :: rest, s, bt, _, hbt, hpos, hsum => by
    have hposrest : ∀ d ∈ d2 :: rest, 0 < d :=
      fun d hd => hpos d (List.mem_cons_of_mem _ hd)
    have hrestpos : 0 < (d2 :: rest).sum :=
      List.sum_pos _ hposrest (List.cons_ne_nil _ _)
    have hsum' : (s.timers e).getD 0 + (d1 + (d2 :: rest).sum) = 1 := by
      simpa using hsum
    have hnot : ¬ (1 : ℚ) ≤ (s.timers e).getD 0 + d1 := by
      push_neg
      linarith
    have hstep : basicUpdateEntity co e d1 s
        = basicSetTimer s e ((s.timers e).getD 0 + d1) := by
      simp [basicUpdateEntity, basicSetTimer, hbt, hnot]
    have ih := basicFold_reaches_one co e (d2 :: rest)
      (basicSetTimer s e ((s.timers e).getD 0 + d1)) bt
      (List.cons_ne_nil _ _) (by simp [basicSetTimer, hbt]) hposrest
      (by
        simp [basicSetTimer]
        simp only [List.sum_cons] at hsum' hrestpos
        linarith)
    rw [show basicFold co e (d1 :: d2 :: rest) s
        = basicFold co e (d2 :: rest) (basicUpdateEntity co e d1 s) from rfl,
      hstep]
    exact ih

theorem basicFold_below_one (co : ℕ → ℕ) (e : ℕ) :
    ∀ (pre : List ℚ) (s : BasicSt) (bt : BehaviorTreeComponent),
      s.data e = some bt →
      (∀ d ∈ pre, 0 < d) → (s.timers e).getD 0 + pre.sum < 1 →
      (basicFold co e pre s).data e = s.data e ∧
      (basicFold co e pre s).rng = s.rng ∧
      ((basicFold co e pre s).timers e).getD 0 = (s.timers e).getD 0 + pre.sum
  | [], s, bt, _, _, _ => by
    refine ⟨rfl, rfl, ?_⟩
    simp [basicFold]
  | d1 :: rest, s, bt, hbt, hpos, hlt => by
    have hrestnonneg : 0 ≤ rest.sum :=
      List.sum_nonneg (fun d hd => le_of_lt (hpos d (List.mem_cons_of_mem _ hd)))
    have hlt' : (s.timers e).getD 0 + (d1 + rest.sum) < 1 := by
      simpa using hlt
    have hnot : ¬ (1 : ℚ) ≤ (s.timers e).getD 0 + d1 := by
      push_neg
      linarith
    have hstep : basicUpdateEntity co e d1 s
        = basicSetTimer s e ((s.timers e).getD 0 + d1) := by
      simp [basicUpdateEntity, basicSetTimer, hbt, hnot]
    have ih := basicFold_below_one co e rest
      (basicSetTimer s e ((s.timers e).getD 0 + d1)) bt
      (by simp [basicSetTimer, hbt])
      (fun d hd => hpos d (List.mem_cons_of_mem _ hd))
      (by
        simp [basicSetTimer]
        linarith)
    rw [show basicFold co e (d1 :: rest) s
        = basicFold co e rest (basicUpdateEntity co e d1 s) from rfl, hstep]
    refine ⟨ih.1.trans (by simp [basicSetTimer]), ih.2.1, ?_⟩
    rw [ih.2.2]
    simp [basicSetTimer]
    ring

/-- C8: an entity with a `BehaviorTreeComponent` (and no accumulated timer)
receiving positive `delta_time` increments summing to exactly 1.0 chooses an
action exactly once, at the final update, where the accumulated timer first
reaches 1.0: after the full sequence, exactly one random draw was made
(`rng` grew by one), `current_action` holds the drawn action, which belongs
to `{"wander", "patrol", "rest", "seek_food", "guard"}`, and the timer is
reset to 0.0; after every proper prefix, no draw has been made,
`current_action` is untouched and the timer holds the prefix sum. -/
theorem basic_behavior_single_choice (co : ℕ → ℕ) (e : ℕ) (dts : List ℚ)
    (s : BasicSt) (bt : BehaviorTreeComponent)
    (hbt : s.data e = some bt) (ht0 : (s.timers e).getD 0 = 0)
    (hpos : ∀ d ∈ dts, 0 < d) (hsum : dts.sum = 1) :
    (basicFold co e dts s).data e
        = some { bt with currentAction := some (chooseAction co s.rng) } ∧
    chooseAction co s.rng ∈ basicActions ∧
    (basicFold co e dts s).timers e = some 0 ∧
    (basicFold co e dts s).rng = s.rng + 1 ∧
    ∀ pre suf, dts = pre ++ suf → suf ≠ [] →
      (basicFold co e pre s).data e = some bt ∧
      (basicFold co e pre s).rng = s.rng ∧
      ((basicFold co e pre s).timers e).getD 0 = pre.sum := by
  have hdne : dts ≠ [] := by
    intro h
    rw [h] at hsum
    simp at hsum
  have hmain := basicFold_reaches_one co e dts s bt hdne hbt hpos
    (by rw [ht0, hsum]; ring)
  refine ⟨hmain.1, chooseAction_mem co s.rng, hmain.2.1, hmain.2.2, ?_⟩
  intro pre suf hsplit hsufne
  have hpre : ∀ d ∈ pre, 0 < d := by
    intro d hd
    exact hpos d (hsplit ▸ List.mem_append_left suf hd)
  have hsufpos : 0 < suf.sum := by
    refine List.sum_pos _ (fun d hd => hpos d ?_) hsufne
    exact hsplit ▸ List.mem_append_right pre hd
  have hsumsplit : pre.sum + suf.sum = 1 := by
    rw [← List.sum_append, ← hsplit, hsum]
  have hprelt : (s.timers e).getD 0 + pre.sum < 1 := by
    rw [ht0]
    linarith
  have h := basicFold_below_one co e pre s bt hbt hpre hprelt
  rw [ht0] at h
  refine ⟨h.1.trans hbt, h.2.1, by rw [h.2.2]; ring⟩

/-- The concrete basic-system state used by the C8 witness: entity 0 holds a
bare `BehaviorTreeComponent`, no timers, no draws made yet. -/
def basicWitnessSt : BasicSt :=
  { data := fun _ => some ⟨none, none⟩, timers := fun _ => none, rng := 0 }

/-- Witness for C8: the increment sequence `[1/2, 1/2]` (positive, summing
to 1.0) applied to `basicWitnessSt` under the oracle that always draws 3
(action `"seek_food"`). -/
theorem basic_behavior_single_choice_witness :
    (basicFold (fun _ => 3) 0 [1 / 2, 1 / 2] basicWitnessSt).data 0
        = some { (⟨none, none⟩ : BehaviorTreeComponent) with
            currentAction := some (chooseAction (fun _ => 3) basicWitnessSt.rng) } ∧
    chooseAction (fun _ => 3) basicWitnessSt.rng ∈ basicActions ∧
    (basicFold (fun _ => 3) 0 [1 / 2, 1 / 2] basicWitnessSt).timers 0 = some 0 ∧
    (basicFold (fun _ => 3) 0 [1 / 2, 1 / 2] basicWitnessSt).rng
      = basicWitnessSt.rng + 1 ∧
    ∀ pre suf, ([1 / 2, 1 / 2] : List ℚ) = pre ++ suf → suf ≠ [] →
      (basicFold (fun _ => 3) 0 pre basicWitnessSt).data 0 = some ⟨none, none⟩ ∧
      (basicFold (fun _ => 3) 0 pre basicWitnessSt).rng = basicWitnessSt.rng ∧
      ((basicFold (fun _ => 3) 0 pre basicWitnessSt).timers 0).getD 0 = pre.sum :=
  basic_behavior_single_choice (fun _ => 3) 0 [1 / 2, 1 / 2] basicWitnessSt
    ⟨none, none⟩ rfl rfl (by norm_num) (by norm_num)

/-! ### `yendoria.components.ai_components`: `Memory`, `MemoryComponent`,
`MotivationComponent` -/

/-- A `Memory` record (ai_components.py).  Floats are rationals; the
`episodic_memories` compatibility field is never read by the code under
study and is omitted. -/
structure Memory where
  content : String
  timestamp : ℚ
  importance : ℚ
  reliability : ℚ
  associatedEntity : Option String := none
  location : Option (ℤ × ℤ) := none
  fadeRate : ℚ := 1 / 100
deriving DecidableEq, Repr

/-- The sort key of `MemoryComponent.add_memory`:
`lambda m: (m.importance, -m.timestamp)`, compared lexicographically. -/
def memKey (m : Memory) : Lex (ℚ × ℚ) := toLex (m.importance, -m.timestamp)

/-- The comparison realised by Python's tuple-key sort. -/
def memLe (a b : Memory) : Prop := memKey a ≤ memKey b

instance : DecidableRel memLe := fun a b => inferInstanceAs (Decidable (_ ≤ _))

instance : IsTotal Memory memLe := ⟨fun _ _ => le_total _ _⟩

instance : IsTrans Memory memLe := ⟨fun _ _ _ => le_trans⟩

/-- `MemoryComponent` (ai_components.py): the bounded memory list, the
`knowledge` dict (only its `"social_interactions"` entry — a list of
interaction-success flags — is touched by the systems under study) and the
capacity. -/
structure MemoryComponent where
  memories : List Memory
  knowledge : String → Option (List Bool)
  max_memories : ℕ

/-- `MemoryComponent.__init__(max_memories=100)`. -/
def mkMemoryComponent (maxMemories : ℕ := 100) : MemoryComponent :=
  { memories := [], knowledge := fun _ => none, max_memories := maxMemories }

/-- `MemoryComponent.add_memory` (ai_components.py, lines 167-175): append,
then if over capacity sort ascending by `(importance, -timestamp)` (Python's
stable sort, modelled by the stable `insertionSort`) and keep the slice
`memories[-max_memories:]`.  For `max_memories = 0` that slice is
`memories[0:]`, the whole list, so nothing is evicted. -/
def addMemory (c : MemoryComponent) (m : Memory) : MemoryComponent :=
  let ms := c.memories ++ [m]
  if c.max_memories < ms.length then
    let sorted := ms.insertionSort memLe
    { c with memories :=
        if c.max_memories = 0 then sorted
        else sorted.drop (sorted.length - c.max_memories) }
  else { c with memories := ms }

/-- `MotivationComponent` (ai_components.py), restricted to the dicts read
and written by the advanced behavior system. -/
structure MotivationComponent where
  survivalNeeds : String → Option ℚ
  socialNeeds : String → Option ℚ

/-- `MotivationComponent.__init__`: the default survival/social need dicts. -/
def mkMotivationComponent : MotivationComponent :=
  { survivalNeeds := fun k =>
      if k = "hunger" then some 0
      else if k = "safety" then some 1
      else if k = "health" then some 1
      else if k = "territory" then some 0
      else none
    socialNeeds := fun k =>
      if k = "companionship" then some 0
      else if k = "approval" then some 0
      else if k = "status" then some 0
      else none }

/-! ### `yendoria.systems.ai_behavior_advanced`: `AdvancedAIBehaviorSystem`
(C7)

`random.random()` is modelled by an oracle `o : ℕ → ℚ` of successive draws,
indexed by the draw counter `rng`.  The system state combines the component
store (per-entity `AdvEntity`), the system's `entity_timers` and
`entity_goals` dicts (entity-keyed; the inner timer dict is created empty and
never populated, the goals dict is never written during `update`), and the
draw counter. -/

/-- The four components of one entity as fetched by
`_update_entity_behavior`. -/
structure AdvEntity where
  bt : Option BehaviorTreeComponent
  personality : Option PersonalityComponent
  motivation : Option MotivationComponent
  memory : Option MemoryComponent

structure AdvSt where
  ids : List ℕ
  data : ℕ → AdvEntity
  timers : ℕ → Option Unit
  goals : ℕ → Option Unit
  rng : ℕ

/-- One `random.random()` draw. -/
def advDraw (o : ℕ → ℚ) (s : AdvSt) : ℚ × AdvSt :=
  (o s.rng, { s with rng := s.rng + 1 })

/-- `context.personality.get_trait(name, d)` for the entity `id`. -/
def advGetTrait (s : AdvSt) (id : ℕ) (name : String) (d : ℚ) : ℚ :=
  match (s.data id).personality with
  | none => d
  | some p => getTrait p name d

/-- `context.motivation.survival_needs.get(key, d)`. -/
def advSurvGet (s : AdvSt) (id : ℕ) (key : String) (d : ℚ) : ℚ :=
  match (s.data id).motivation with
  | none => d
  | some mo => (mo.survivalNeeds key).getD d

/-- `context.motivation.social_needs.get(key, d)`. -/
def advSocGet (s : AdvSt) (id : ℕ) (key : String) (d : ℚ) : ℚ :=
  match (s.data id).motivation with
  | none => d
  | some mo => (mo.socialNeeds key).getD d

/-- `context.motivation.survival_needs[key] = v`. -/
def advSetSurvival (s : AdvSt) (id : ℕ) (key : String) (v : ℚ) : AdvSt :=
  { s with data := fun j =>
      if j = id then
        match s.data id with
        | e =>
          { e with motivation := e.motivation.map (fun mo =>
              { mo with survivalNeeds := fun k =>
                  if k = key then some v else mo.survivalNeeds k }) }
      else s.data j }

/-- The socialize bookkeeping on `context.memory.knowledge`: ensure the
`"social_interactions"` entry exists, then append an interaction record with
the given success flag. -/
def advAddSocialInteraction (s : AdvSt) (id : ℕ) (success : Bool) : AdvSt :=
  { s with data := fun j =>
      if j = id then
        match s.data id with
        | e =>
          { e with memory := e.memory.map (fun me =>
              { me with knowledge := fun k =>
                  if k = "social_interactions" then
                    some ((me.knowledge k).getD [] ++ [success])
                  else me.knowledge k }) }
      else s.data j }

/-- `_execute_action` (via `_action_wander` / `_action_seek_food` /
`_action_socialize` / `_action_guard_territory` / `_action_flee`); unknown
action types log a warning and fail. -/
def execAdvAction (o : ℕ → ℚ) (id : ℕ) (name : String) (s : AdvSt) :
    Bool × AdvSt :=
  if name = "wander" then
    let chance := 3 / 10 + advGetTrait s id "restlessness" (1 / 2) * (4 / 10)
    let rs := advDraw o s
    (decide (rs.1 < chance), rs.2)
  else if name = "seek_food" then
    let rs := advDraw o s
    if rs.1 < 2 / 10 then
      (true, advSetSurvival rs.2 id "hunger"
        (max 0 (advSurvGet rs.2 id "hunger" 0 - 3 / 10)))
    else (false, rs.2)
  else if name = "socialize" then
    if advGetTrait s id "sociability" (1 / 2) < 3 / 10 then (false, s)
    else
      let rs := advDraw o s
      (true, advAddSocialInteraction rs.2 id
        (decide (rs.1 < advGetTrait rs.2 id "charisma" (1 / 2))))
  else if name = "guard_territory" then
    (decide (1 / 2 < advSurvGet s id "territory" 0), s)
  else if name = "flee" then
    let rs := advDraw o s
    (decide (rs.1 < 1 - advGetTrait rs.2 id "courage" (1 / 2)), rs.2)
  else (false, s)

/-- `_evaluate_condition`; unknown condition types log a warning and fail. -/
def execAdvCondition (o : ℕ → ℚ) (id : ℕ) (name : String) (s : AdvSt) :
    Bool × AdvSt :=
  if name = "is_hungry" then (decide (7 / 10 < advSurvGet s id "hunger" 0), s)
  else if name = "is_threatened" then
    (decide (advSurvGet s id "safety" 1 < 3 / 10), s)
  else if name = "is_lonely" then
    (decide (6 / 10 < advSocGet s id "companionship" 0), s)
  else if name = "is_confident" then
    (decide (6 / 10 < advGetTrait s id "courage" (1 / 2)), s)
  else if name = "has_enemy_nearby" then
    let rs := advDraw o s
    (decide (rs.1 < 1 / 10), rs.2)
  else (false, s)

mutual

/-- `_execute_behavior_node`: dispatch on the node type; unknown types fail
with no effect. -/
def execNode (o : ℕ → ℚ) (id : ℕ) : BTNode → AdvSt → Bool × AdvSt
  | .selector cs, s => execSelector o id cs s
  | .sequence cs, s => execSequence o id cs s
  | .action n, s => execAdvAction o id n s
  | .condition n, s => execAdvCondition o id n s
  | .other, s => (false, s)

/-- `_execute_selector_node`: children in order until one succeeds. -/
def execSelector (o : ℕ → ℚ) (id : ℕ) : List BTNode → AdvSt → Bool × AdvSt
  | [], s => (false, s)
  | c :: cs, s =>
    match execNode o id c s with
    | (true, s') => (true, s')
    | (false, s') => execSelector o id cs s'

/-- `_execute_sequence_node`: children in order until one fails. -/
def execSequence (o : ℕ → ℚ) (id : ℕ) : List BTNode → AdvSt → Bool × AdvSt
  | [], s => (true, s)
  | c :: cs, s =>
    match execNode o id c s with
    | (false, s') => (false, s')
    | (true, s') => execSequence o id cs s'

end

/-- `_process_behavior_tree`: no-op when `tree_data` is falsy or has no
`"root"` entry; otherwise execute the root node (its Boolean result is
discarded). -/
def processBehaviorTree (o : ℕ → ℚ) (id : ℕ) (bt : BehaviorTreeComponent)
    (s : AdvSt) : AdvSt :=
  match bt.treeData with
  | none => s
  | some none => s
  | some (some root) => (execNode o id root s).2

/-- The `entity_timers[entity_id] = {}` bookkeeping. -/
def advEnsureTimer (s : AdvSt) (id : ℕ) : AdvSt :=
  if (s.timers id).isNone then
    { s with timers := fun j => if j = id then some () else s.timers j }
  else s

/-- `AdvancedAIBehaviorSystem._update_entity_behavior(entity_id, delta_time)`
(ai_behavior_advanced.py, lines 113-153): fetch the four components; return
(with no effect) when the behavior tree is missing, or when any of
personality / motivation / memory is missing; only then create the timer
entry and process the behavior tree.  (`delta_time` is stored in the
`BehaviorContext` but never read by any action or condition.) -/
def advUpdateEntity (o : ℕ → ℚ) (id : ℕ) (s : AdvSt) : AdvSt :=
  match (s.data id).bt with
  | none => s
  | some bt =>
    if ((s.data id).personality.isSome && (s.data id).motivation.isSome
        && (s.data id).memory.isSome) then
      processBehaviorTree o id bt (advEnsureTimer s id)
    else s

/-- `AdvancedAIBehaviorSystem.update(delta_time)` (lines 85-111): iterate the
entities holding a `BehaviorTreeComponent` (the index snapshot taken before
the loop) and update each. -/
def advUpdate (o : ℕ → ℚ) (s : AdvSt) : AdvSt :=
  (s.ids.filter (fun id => ((s.data id).bt).isSome)).foldl
    (fun st id => advUpdateEntity o id st) s

/-- Everything an update of entity `id` may *not* touch: the id list, the
timer, goal and component-store entries of every other entity. -/
def AgreesOffId (id : ℕ) (s s' : AdvSt) : Prop :=
  s'.ids = s.ids ∧ (∀ j, j ≠ id → s'.timers j = s.timers j) ∧
  (∀ j, j ≠ id → s'.goals j = s.goals j) ∧
  (∀ j, j ≠ id → s'.data j = s.data j)

theorem agreesOffId_refl (id : ℕ) (s : AdvSt) : AgreesOffId id s s :=
  ⟨rfl, fun _ _ => rfl, fun _ _ => rfl, fun _ _ => rfl⟩

theorem agreesOffId_trans {id : ℕ} {s s' s'' : AdvSt}
    (h1 : AgreesOffId id s s') (h2 : AgreesOffId id s' s'') :
    AgreesOffId id s s'' :=
  ⟨h2.1.trans h1.1,
   fun j hj => (h2.2.1 j hj).trans (h1.2.1 j hj),
   fun j hj => (h2.2.2.1 j hj).trans (h1.2.2.1 j hj),
   fun j hj => (h2.2.2.2 j hj).trans (h1.2.2.2 j hj)⟩

theorem advDraw_agrees (o : ℕ → ℚ) (id : ℕ) (s : AdvSt) :
    AgreesOffId id s (advDraw o s).2 :=
  ⟨rfl, fun _ _ => rfl, fun _ _ => rfl, fun _ _ => rfl⟩

theorem advSetSurvival_agrees (id : ℕ) (key : String) (v : ℚ) (s : AdvSt) :
    AgreesOffId id s (advSetSurvival s id key v) := by
  refine ⟨rfl, fun _ _ => rfl, fun _ _ => rfl, fun j hj => ?_⟩
  simp [advSetSurvival, hj]

theorem advAddSocialInteraction_agrees (id : ℕ) (b : Bool) (s : AdvSt) :
    AgreesOffId id s (advAddSocialInteraction s id b) := by
  refine ⟨rfl, fun _ _ => rfl, fun _ _ => rfl, fun j hj => ?_⟩
  simp [advAddSocialInteraction, hj]

theorem execAdvAction_agrees (o : ℕ → ℚ) (id : ℕ) (name : String) (s : AdvSt) :
    AgreesOffId id s (execAdvAction o id name s).2 := by
  unfold execAdvAction
  dsimp only
  split
  · exact advDraw_agrees o id s
  split
  · split
    · exact agreesOffId_trans (advDraw_agrees o id s)
        (advSetSurvival_agrees id "hunger" _ _)
    · exact advDraw_agrees o id s
  split
  · split
    · exact agreesOffId_refl id s
    · exact agreesOffId_trans (advDraw_agrees o id s)
        (advAddSocialInteraction_agrees id _ _)
  split
  · exact agreesOffId_refl id s
  split
  · exact advDraw_agrees o id s
  · exact agreesOffId_refl id s

theorem execAdvCondition_agrees (o : ℕ → ℚ) (id : ℕ) (name : String)
    (s : AdvSt) : AgreesOffId id s (execAdvCondition o id name s).2 := by
  unfold execAdvCondition
  split
  · exact agreesOffId_refl id s
  split
  · exact agreesOffId_refl id s
  split
  · exact agreesOffId_refl id s
  split
  · exact agreesOffId_refl id s
  split
  · exact advDraw_agrees o id s
  · exact agreesOffId_refl id s

mutual

theorem execNode_agrees (o : ℕ → ℚ) (id : ℕ) :
    ∀ (n : BTNode) (s : AdvSt), AgreesOffId id s (execNode o id n s).2
  | .selector cs, s => execSelector_agrees o id cs s
  | .sequence cs, s => execSequence_agrees o id cs s
  | .action n, s => execAdvAction_agrees o id n s
  | .condition n, s => execAdvCondition_agrees o id n s
  | .other, s => agreesOffId_refl id s

theorem execSelector_agrees (o : ℕ → ℚ) (id : ℕ) :
    ∀ (cs : List BTNode) (s : AdvSt), AgreesOffId id s (execSelector o id cs s).2
  | [], s => agreesOffId_refl id s
  | c :: cs, s => by
    have h1 := execNode_agrees o id c s
    unfold execSelector
    rcases hres : execNode o id c s with ⟨b, s'⟩
    rw [hres] at h1
    cases b
    · exact agreesOffId_trans h1 (execSelector_agrees o id cs s')
    · exact h1

theorem execSequence_agrees (o : ℕ → ℚ) (id : ℕ) :
    ∀ (cs : List BTNode) (s : AdvSt), AgreesOffId id s (execSequence o id cs s).2
  | [], s => agreesOffId_refl id s
  | c :: cs, s => by
    have h1 := execNode_agrees o id c s
    unfold execSequence
    rcases hres : execNode o id c s with ⟨b, s'⟩
    rw [hres] at h1
    cases b
    · exact h1
    · exact agreesOffId_trans h1 (execSequence_agrees o id cs s')

end

theorem processBehaviorTree_agrees (o : ℕ → ℚ) (id : ℕ)
    (bt : BehaviorTreeComponent) (s : AdvSt) :
    AgreesOffId id s (processBehaviorTree o id bt s) := by
  unfold processBehaviorTree
  rcases bt.treeData with - | td
  · exact agreesOffId_refl id s
  rcases td with - | root
  · exact agreesOffId_refl id s
  · exact execNode_agrees o id root s

theorem advEnsureTimer_agrees (id : ℕ) (s : AdvSt) :
    AgreesOffId id s (advEnsureTimer s id) := by
  unfold advEnsureTimer
  split
  · exact ⟨rfl, fun j hj => by simp [hj], fun _ _ => rfl, fun _ _ => rfl⟩
  · exact agreesOffId_refl id s

theorem advUpdateEntity_agrees (o : ℕ → ℚ) (id : ℕ) (s : AdvSt) :
    AgreesOffId id s (advUpdateEntity o id s) := by
  unfold advUpdateEntity
  rcases (s.data id).bt with - | bt
  · exact agreesOffId_refl id s
  · dsimp only
    by_cases hc : ((s.data id).personality.isSome
        && (s.data id).motivation.isSome && (s.data id).memory.isSome) = true
    · rw [if_pos hc]
      exact agreesOffId_trans (advEnsureTimer_agrees id s)
        (processBehaviorTree_agrees o id bt (advEnsureTimer s id))
    · rw [if_neg hc]
      exact agreesOffId_refl id s

/-- The per-entity early return of `_update_entity_behavior`: when any of
personality / motivation / memory is missing (with the behavior tree
present or absent alike), the update is the identity on the whole state. -/
theorem advUpdateEntity_skip (o : ℕ → ℚ) (e : ℕ) (s : AdvSt)
    (hmiss : (s.data e).bt = none ∨ (s.data e).personality = none
      ∨ (s.data e).motivation = none ∨ (s.data e).memory = none) :
    advUpdateEntity o e s = s := by
  unfold advUpdateEntity
  rcases hbt : (s.data e).bt with - | bt
  · rfl
  · rcases hmiss with h | h | h | h
    · rw [hbt] at h
      cases h
    · simp [h]
    · simp [h]
    · simp [h]

theorem advFold_preserves (o : ℕ → ℚ) (e : ℕ) :
    ∀ (l : List ℕ) (s : AdvSt),
      ((s.data e).bt = none ∨ (s.data e).personality = none
        ∨ (s.data e).motivation = none ∨ (s.data e).memory = none) →
      (l.foldl (fun st id => advUpdateEntity o id st) s).data e = s.data e ∧
      (l.foldl (fun st id => advUpdateEntity o id st) s).timers e = s.timers e ∧
      (l.foldl (fun st id => advUpdateEntity o id st) s).goals e = s.goals e
  | [], s, _ => ⟨rfl, rfl, rfl⟩
  | id :: l, s, hmiss => by
    rcases Decidable.em (id = e) with rfl | hne
    · rw [show (id :: l).foldl (fun st i => advUpdateEntity o i st) s
          = l.foldl (fun st i => advUpdateEntity o i st) (advUpdateEntity o id s)
          from rfl,
        advUpdateEntity_skip o id s hmiss]
      exact advFold_preserves o id l s hmiss
    · have hag := advUpdateEntity_agrees o id s
      have hd := hag.2.2.2 e (fun h => hne h.symm)
      have ht := hag.2.1 e (fun h => hne h.symm)
      have hg := hag.2.2.1 e (fun h => hne h.symm)
      have ih := advFold_preserves o e l (advUpdateEntity o id s)
        (by rw [hd]; exact hmiss)
      exact ⟨ih.1.trans hd, ih.2.1.trans ht, ih.2.2.trans hg⟩

/-- C7: in the advanced behavior system, an entity missing any one of the
Personality, Motivation, Memory or BehaviorTree components is skipped by
`update(delta_time)` with zero side effects: its components are not mutated,
no `entity_timers` or `entity_goals` entry is created for it, whatever the
other entities do.  (A missing BehaviorTree keeps the entity out of the
iteration entirely; with the tree present, the missing-companion check
returns before the timer entry is created and before any action runs.) -/
theorem adv_update_skips_incomplete_entity (o : ℕ → ℚ) (s : AdvSt) (e : ℕ)
    (hmiss : (s.data e).bt = none ∨ (s.data e).personality = none
      ∨ (s.data e).motivation = none ∨ (s.data e).memory = none) :
    (advUpdate o s).data e = s.data e ∧
    (advUpdate o s).timers e = s.timers e ∧
    (advUpdate o s).goals e = s.goals e :=
  advFold_preserves o e (s.ids.filter (fun id => ((s.data id).bt).isSome)) s hmiss

/-- The advanced-system state of the C7 witness: entity 0 has a behavior
tree with a root action, a motivation and a memory component, but no
personality component — one of the four single-component-missing cases. -/
def advWitnessSt : AdvSt :=
  { ids := [0]
    data := fun _ =>
      { bt := some ⟨some (some (BTNode.action "seek_food")), none⟩
        personality := none
        motivation := some mkMotivationComponent
        memory := some (mkMemoryComponent 100) }
    timers := fun _ => none
    goals := fun _ => none
    rng := 0 }

/-- Witness for C7: entity 0 of `advWitnessSt` (missing only the personality
component) is skipped by `update` with its components, timers and goals
untouched. -/
theorem adv_update_skips_incomplete_entity_witness :
    (advUpdate (fun _ => 0) advWitnessSt).data 0 = advWitnessSt.data 0 ∧
    (advUpdate (fun _ => 0) advWitnessSt).timers 0 = advWitnessSt.timers 0 ∧
    (advUpdate (fun _ => 0) advWitnessSt).goals 0 = advWitnessSt.goals 0 :=
  adv_update_skips_incomplete_entity (fun _ => 0) advWitnessSt 0
    (Or.inr (Or.inl rfl))

/-! ### `MemoryComponent.add_memory` eviction (C6)

The claim is about the multiset of stored memories after each call.  The
analysis works with the ascending sort realised by the Python key
`(importance, -timestamp)`; `topMems l n` is the suffix of the sorted list
holding its `n` greatest elements. -/

/-- The `n` greatest of the memories `l` under the `(importance, -timestamp)`
key, as the length-`min n |l|` suffix of the ascending stable sort. -/
def topMems (l : List Memory) (n : ℕ) : List Memory :=
  (l.insertionSort memLe).drop (l.length - n)

/-- Adding a list of memories in order to a fresh component of capacity `n`. -/
def addAll (n : ℕ) (ms : List Memory) : MemoryComponent :=
  ms.foldl addMemory (mkMemoryComponent n)

theorem addMemory_max (c : MemoryComponent) (m : Memory) :
    (addMemory c m).max_memories = c.max_memories := by
  unfold addMemory
  dsimp only
  split <;> rfl

theorem addAll_max (n : ℕ) (ms : List Memory) :
    (addAll n ms).max_memories = n := by
  suffices h : ∀ c : MemoryComponent,
      (ms.foldl addMemory c).max_memories = c.max_memories from h _
  induction ms with
  | nil => exact fun _ => rfl
  | cons m ms ih =>
    intro c
    rw [List.foldl_cons, ih, addMemory_max]

/-- `x` sorts strictly before `m`: the insertion-point predicate of the
sorted memory list. -/
def notLeM (m : Memory) : Memory → Bool := fun b => decide (¬ memLe m b)

theorem notLeM_down {m a b : Memory} (hab : memLe a b) (hb : notLeM m b = true) :
    notLeM m a = true := by
  rw [notLeM, decide_eq_true_iff] at hb ⊢
  intro hma
  exact hb (le_trans (α := Lex (ℚ × ℚ)) hma hab)

/-- In a sorted list whose head does not sort strictly before `m`, no
element does. -/
theorem notLeM_all_false {m b : Memory} {l : List Memory}
    (hs : (b :: l).Sorted memLe) (hb : ¬ notLeM m b = true) :
    ∀ c ∈ l, ¬ notLeM m c = true := by
  intro c hc hcc
  exact hb (notLeM_down (List.rel_of_sorted_cons hs c hc) hcc)

/-- `orderedInsert` on a sorted list splits it at the count of elements that
sort strictly before the inserted one. -/
theorem orderedInsert_sorted_eq (m : Memory) :
    ∀ (l : List Memory), l.Sorted memLe →
      List.orderedInsert memLe m l
        = l.take (l.countP (notLeM m)) ++ m :: l.drop (l.countP (notLeM m))
  | [], _ => rfl
  | b :: l, hs => by
    by_cases hmb : memLe m b
    · have hb : ¬ notLeM m b = true := by
        simp [notLeM, hmb]
    -- every element of b :: l is ≥ m, so the count is zero
      have hcount : (b :: l).countP (notLeM m) = 0 := by
        refine List.countP_eq_zero.2 ?_
        intro a ha
        rcases List.mem_cons.1 ha with rfl | ha'
        · exact hb
        · exact notLeM_all_false hs hb a ha'
      rw [List.orderedInsert, if_pos hmb, hcount]
      rfl
    · have hb : notLeM m b = true := by
        simp [notLeM, hmb]
      have hcount : (b :: l).countP (notLeM m) = l.countP (notLeM m) + 1 :=
        List.countP_cons_of_pos _ _ hb
      rw [List.orderedInsert, if_neg hmb, orderedInsert_sorted_eq m l hs.of_cons,
        hcount]
      rfl

/-- Dropping `j` elements of a sorted list removes `j` of the elements that
sort strictly before `m` (they form a prefix). -/
theorem countP_drop_sorted (m : Memory) :
    ∀ (l : List Memory), l.Sorted memLe → ∀ (j : ℕ),
      (l.drop j).countP (notLeM m) = l.countP (notLeM m) - j
  | [], _, j => by simp
  | b :: l, _, 0 => by simp
  | b :: l, hs, j + 1 => by
    have ih := countP_drop_sorted m l hs.of_cons j
    show (l.drop j).countP (notLeM m) = (b :: l).countP (notLeM m) - (j + 1)
    by_cases hb : notLeM m b = true
    · rw [ih, List.countP_cons_of_pos _ _ hb]
      omega
    · have h0 : l.countP (notLeM m) = 0 :=
        List.countP_eq_zero.2 (notLeM_all_false hs hb)
      rw [ih, h0, List.countP_cons_of_neg _ _ hb, h0]
      omega

/-- The crux of the eviction invariant: inserting into the `j`-th suffix of a
sorted list and dropping the least element equals inserting into the whole
list and dropping the `j + 1` least. -/
theorem orderedInsert_drop_comm (m : Memory) (L : List Memory)
    (hs : L.Sorted memLe) (j : ℕ) :
    (List.orderedInsert memLe m (L.drop j)).drop 1
      = (List.orderedInsert memLe m L).drop (j + 1) := by
  have hsd : (L.drop j).Sorted memLe := hs.sublist (List.drop_sublist j L)
  have htlen : L.countP (notLeM m) ≤ L.length := List.countP_le_length _
  set t := L.countP (notLeM m) with ht
  have hL : List.orderedInsert memLe m L = L.take t ++ m :: L.drop t :=
    orderedInsert_sorted_eq m L hs
  have hH : List.orderedInsert memLe m (L.drop j)
      = (L.drop j).take (t - j) ++ m :: (L.drop j).drop (t - j) := by
    rw [orderedInsert_sorted_eq m (L.drop j) hsd, countP_drop_sorted m L hs j]
  have hlt : (L.take t).length = t := by
    rw [List.length_take]
    omega
  rcases le_or_lt t j with hcase | hcase
  · have htj : t - j = 0 := Nat.sub_eq_zero_of_le hcase
    have hLHS : (List.orderedInsert memLe m (L.drop j)).drop 1 = L.drop j := by
      rw [hH, htj]
      simp
    have hRHS : (List.orderedInsert memLe m L).drop (j + 1) = L.drop j := by
      rw [hL, List.drop_append_eq_append_drop,
        List.drop_eq_nil_of_le (le_trans (le_of_eq hlt) (by omega)),
        List.nil_append, hlt, show j + 1 - t = (j - t) + 1 from by omega]
      show (L.drop t).drop (j - t) = L.drop j
      rw [List.drop_drop]
      congr 1
      omega
    rw [hLHS, hRHS]
  · have hlenH : ((L.drop j).take (t - j)).length = t - j := by
      rw [List.length_take, List.length_drop]
      omega
    rw [hH, hL, List.drop_append_eq_append_drop, List.drop_append_eq_append_drop,
      hlenH, hlt, show 1 - (t - j) = 0 from by omega,
      show j + 1 - t = 0 from by omega]
    simp only [List.drop_zero]
    congr 1
    · rw [List.take_drop, show j + (t - j) = t from by omega, List.drop_drop,
        Nat.add_comm j 1]
    · congr 1
      rw [List.drop_drop]
      congr 1
      omega

/-- Two sorted permutations of each other with pairwise-distinct keys are
equal (`memLe` is antisymmetric on lists without key collisions). -/
theorem eq_of_perm_sorted_nodupKeys :
    ∀ (l₁ l₂ : List Memory), List.Perm l₁ l₂ → l₁.Sorted memLe →
      l₂.Sorted memLe → (l₁.map memKey).Nodup → l₁ = l₂
  | [], l₂, hp, _, _, _ => hp.nil_eq
  | a :: t₁, l₂, hp, hs₁, hs₂, hnd => by
    rcases l₂ with - | ⟨b, t₂⟩
    · exact hp.eq_nil
    · have hab : a = b := by
        have hb1 : b ∈ a :: t₁ := hp.mem_iff.2 (List.mem_cons_self b t₂)
        rcases List.mem_cons.1 hb1 with hba | hbt
        · exact hba.symm
        · have ha2 : a ∈ b :: t₂ := hp.mem_iff.1 (List.mem_cons_self a t₁)
          rcases List.mem_cons.1 ha2 with heq | hat
          · exact heq
          · have h1 : memLe a b := List.rel_of_sorted_cons hs₁ b hbt
            have h2 : memLe b a := List.rel_of_sorted_cons hs₂ a hat
            have hkey : memKey a = memKey b :=
              le_antisymm (α := Lex (ℚ × ℚ)) h1 h2
            have hnotin : memKey a ∉ t₁.map memKey :=
              (List.nodup_cons.1 (by simpa using hnd)).1
            exact absurd (hkey ▸ List.mem_map_of_mem memKey hbt) hnotin
      subst hab
      have hrec := eq_of_perm_sorted_nodupKeys t₁ t₂ hp.cons_inv hs₁.of_cons
        hs₂.of_cons (List.nodup_cons.1 (by simpa using hnd)).2
      rw [hrec]

/-- On lists with pairwise-distinct keys, sorting is invariant under
permutation (the stable sort of any reordering is the same list). -/
theorem insertionSort_eq_of_perm {l₁ l₂ : List Memory} (hp : List.Perm l₁ l₂)
    (hnd : (l₁.map memKey).Nodup) :
    l₁.insertionSort memLe = l₂.insertionSort memLe := by
  refine eq_of_perm_sorted_nodupKeys _ _ ?_ (List.sorted_insertionSort memLe l₁)
    (List.sorted_insertionSort memLe l₂) ?_
  · exact (List.perm_insertionSort memLe l₁).trans
      (hp.trans (List.perm_insertionSort memLe l₂).symm)
  · exact ((List.perm_insertionSort memLe l₁).map memKey).nodup_iff.2 hnd

/-- Sorting the `j`-suffix of a sorted list with one new element appended:
the stable sort of `L.drop j ++ [m]` is `orderedInsert m (L.drop j)` (both
are sorted arrangements of the same memories, and keys are distinct). -/
theorem insertionSort_suffix_append (m : Memory) (L : List Memory)
    (hs : L.Sorted memLe) (j : ℕ)
    (hnd : ((L.drop j ++ [m]).map memKey).Nodup) :
    (L.drop j ++ [m]).insertionSort memLe
      = List.orderedInsert memLe m (L.drop j) := by
  have hsd : (L.drop j).Sorted memLe := hs.sublist (List.drop_sublist j L)
  refine eq_of_perm_sorted_nodupKeys _ _ ?_
    (List.sorted_insertionSort memLe _) (hsd.orderedInsert m _) ?_
  · exact (List.perm_insertionSort memLe _).trans
      ((List.perm_append_singleton m _).trans
        (List.perm_orderedInsert memLe m _).symm)
  · exact ((List.perm_insertionSort memLe _).map memKey).nodup_iff.2 hnd

/-- The non-evicting branch of `add_memory`: within capacity the new memory
is appended. -/
theorem addMemory_no_evict (c : MemoryComponent) (m : Memory)
    (h : ¬ c.max_memories < (c.memories ++ [m]).length) :
    (addMemory c m).memories = c.memories ++ [m] := by
  unfold addMemory
  dsimp only
  rw [if_neg h]

/-- The evicting branch of `add_memory` (positive capacity): sort and keep
the greatest-`max_memories` suffix. -/
theorem addMemory_evict (c : MemoryComponent) (m : Memory)
    (h1 : c.max_memories < (c.memories ++ [m]).length) (h0 : ¬ c.max_memories = 0) :
    (addMemory c m).memories
      = ((c.memories ++ [m]).insertionSort memLe).drop
          (((c.memories ++ [m]).insertionSort memLe).length - c.max_memories) := by
  unfold addMemory
  dsimp only
  rw [if_pos h1, if_neg h0]

/-- The eviction invariant of `add_memory`, by induction over the sequence
of added memories (capacity `n ≥ 1`, pairwise-distinct sort keys): while at
most `n` memories have been added the store holds them all in insertion
order; afterwards it holds exactly the suffix of the sorted history — its
`n` greatest elements. -/
theorem addAll_memories_spec (n : ℕ) (hn : 1 ≤ n) :
    ∀ (ms : List Memory), (ms.map memKey).Nodup →
      (ms.length ≤ n ∧ (addAll n ms).memories = ms) ∨
      (n < ms.length ∧ (addAll n ms).memories = topMems ms n) := by
  intro ms
  induction ms using List.reverseRecOn with
  | nil => exact fun _ => Or.inl ⟨by simp, rfl⟩
  | append_singleton ms m ih =>
    intro hnd
    have hndms : (ms.map memKey).Nodup := by
      rw [List.map_append] at hnd
      exact (List.nodup_append.1 hnd).1
    have hstep : addAll n (ms ++ [m]) = addMemory (addAll n ms) m := by
      unfold addAll
      rw [List.foldl_append]
      rfl
    have hmax : (addAll n ms).max_memories = n := addAll_max n ms
    have hlen : (ms ++ [m]).length = ms.length + 1 := by simp
    have hn0 : ¬ (addAll n ms).max_memories = 0 := by
      rw [hmax]
      omega
    rcases ih hndms with ⟨hle, heq⟩ | ⟨hgt, heq⟩
    · rcases le_or_lt (ms.length + 1) n with hle1 | hgt1
      · -- still within capacity: plain append, no eviction
        left
        refine ⟨by omega, ?_⟩
        rw [hstep, addMemory_no_evict _ _ (by simp [hmax, heq]; omega), heq]
      · -- exactly at capacity: first eviction, the store was the raw history
        right
        refine ⟨by omega, ?_⟩
        rw [hstep, addMemory_evict _ _ (by simp [hmax, heq]; omega) hn0, hmax, heq]
        unfold topMems
        rw [List.length_insertionSort, hlen]
    · -- beyond capacity: the store is the sorted suffix; use the crux
      right
      have hklen : (ms.insertionSort memLe).length = ms.length :=
        List.length_insertionSort memLe ms
      have hstored : (addAll n ms).memories
          = (ms.insertionSort memLe).drop (ms.length - n) := heq
      have hstoredlen : (addAll n ms).memories.length = n := by
        rw [hstored, List.length_drop, hklen]
        omega
      refine ⟨by omega, ?_⟩
      have hndsuffix : (((ms.insertionSort memLe).drop (ms.length - n) ++ [m]).map
          memKey).Nodup := by
        have hperm : List.Perm ((ms.insertionSort memLe ++ [m]).map memKey)
            ((ms ++ [m]).map memKey) :=
          ((List.perm_insertionSort memLe ms).append_right [m]).map memKey
        have hndsort : ((ms.insertionSort memLe ++ [m]).map memKey).Nodup :=
          hperm.nodup_iff.2 hnd
        exact hndsort.sublist
          (((List.drop_sublist (ms.length - n) _).append_right [m]).map memKey)
      rw [hstep, addMemory_evict _ _
          (by rw [List.length_append, hstoredlen, hmax]; simp) hn0,
        hmax, hstored,
        insertionSort_suffix_append m _ (List.sorted_insertionSort memLe ms)
          (ms.length - n) hndsuffix,
        show (List.orderedInsert memLe m
            ((ms.insertionSort memLe).drop (ms.length - n))).length - n = 1 from by
          rw [List.orderedInsert_length, List.length_drop, hklen]
          omega,
        orderedInsert_drop_comm m (ms.insertionSort memLe)
          (List.sorted_insertionSort memLe ms) (ms.length - n)]
      have hins : List.orderedInsert memLe m (ms.insertionSort memLe)
          = (ms ++ [m]).insertionSort memLe := by
        refine eq_of_perm_sorted_nodupKeys _ _ ?_
          ((List.sorted_insertionSort memLe ms).orderedInsert m _)
          (List.sorted_insertionSort memLe _) ?_
        · exact (List.perm_orderedInsert memLe m _).trans
            ((((List.perm_insertionSort memLe ms).cons m).trans
              (List.perm_append_singleton m ms).symm).trans
              (List.perm_insertionSort memLe (ms ++ [m])).symm)
        · refine (List.Perm.nodup_iff ?_).2 hnd
          exact ((List.perm_orderedInsert memLe m _).trans
            (((List.perm_insertionSort memLe ms).cons m).trans
              (List.perm_append_singleton m ms).symm)).map memKey
      rw [hins]
      unfold topMems
      congr 1
      rw [hlen]
      omega

/-- A concrete memory for the C6 theorems. -/
def mkMem (importance timestamp : ℚ) : Memory :=
  { content := "m", timestamp := timestamp, importance := importance,
    reliability := 1 }

/-- Counterexample for C6 as stated: with `max_memories = 0` the claim says
the store holds the `0` greatest memories — none — after any add.  But the
eviction slice `memories[-max_memories:]` is `memories[0:]` for
`max_memories = 0`, the whole list: adding one memory to a fresh component of
capacity 0 stores that memory, while `topMems` of the one-element history at
`n = 0` is empty. -/
theorem add_memory_max_zero_counterexample :
    (addMemory (mkMemoryComponent 0) (mkMem (1 / 2) 0)).memories
        = [mkMem (1 / 2) 0] ∧
    topMems [mkMem (1 / 2) 0] 0 = [] ∧
    [mkMem (1 / 2) 0] ≠ ([] : List Memory) := by
  refine ⟨rfl, rfl, by simp⟩

/-- C6 (amended): for `max_memories = n ≥ 1` and memories with
pairwise-distinct `(importance, -timestamp)` keys, after every `add_memory`
call the stored memories are exactly (a permutation of) the `n` greatest of
all memories added so far, ordered by that key — quantifying over the full
history `ms` covers the state after each call.  For `max_memories = 0` the
negative-zero slice keeps every memory and nothing is ever evicted. -/
theorem add_memory_keeps_n_greatest (n : ℕ) (ms : List Memory)
    (hn : 1 ≤ n) (hnd : (ms.map memKey).Nodup) :
    List.Perm (addAll n ms).memories (topMems ms n) := by
  rcases addAll_memories_spec n hn ms hnd with ⟨hle, heq⟩ | ⟨-, heq⟩
  · rw [heq]
    unfold topMems
    rw [Nat.sub_eq_zero_of_le hle, List.drop_zero]
    exact (List.perm_insertionSort memLe ms).symm
  · rw [heq]

/-- Witness for C6: the claim's concrete scenario with the importances
scaled by 10 — capacity 3, importances `[9, 1, 5, 7]` (the same key order as
`[0.9, 0.1, 0.5, 0.7]`; integer rationals let the kernel evaluate the
hypotheses) added in that order at timestamps 0, 1, 2, 3. -/
theorem add_memory_keeps_n_greatest_witness :
    List.Perm
      (addAll 3 [mkMem 9 0, mkMem 1 1, mkMem 5 2, mkMem 7 3]).memories
      (topMems [mkMem 9 0, mkMem 1 1, mkMem 5 2, mkMem 7 3] 3) :=
  add_memory_keeps_n_greatest 3 [mkMem 9 0, mkMem 1 1, mkMem 5 2, mkMem 7 3]
    (by decide) (by decide)

/-- Concrete readout of the witness scenario: after the fourth add the store
holds exactly the memories of importances 5, 7, 9 (in ascending key order) —
the importance-1 memory was evicted, as the claim's example demands for
0.5, 0.7, 0.9 versus 0.1. -/
theorem add_memory_concrete_eviction :
    (addAll 3 [mkMem 9 0, mkMem 1 1, mkMem 5 2, mkMem 7 3]).memories
      = [mkMem 5 2, mkMem 7 3, mkMem 9 0] := by
  rfl

end Yendoria
